import Mathlib

/-!
Verification of the bccc cryptographic / transaction-validation core.

This development gives a shallow embedding of the repository's ECDSA engine
(`lib/ecdsa.js`), public-key codec (`pubkey.js`) and transaction verifier
(`txverifier.js`), and proves or refutes the specified properties against it.

Modules of the repository that are not part of the provided sources (the
big-number library `bn.js`, the curve-point module `point.js`, the HMAC hash
module `hash.js`, and the transaction structure `tx.js`) are modelled from the
specification; every such definition carries a doc comment starting with
`Modelled from the spec:`.  All other definitions are direct translations of
the JavaScript source: buffers become `List ℕ` (byte lists), big numbers
become `ℕ` (or `ℤ` where the source compares against negative values),
JavaScript `undefined` becomes `Option.none`, thrown exceptions become
`Except.error`, and loops whose termination the source does not guarantee
take an explicit fuel argument and return `Option`.
-/

set_option maxRecDepth 10000

/-- The order `N` of the secp256k1 group (`Point.getN()` in the source). -/
def secpN : ℕ :=
  115792089237316195423570985008687907852837564279074904382605163141518161494337

/-- The secp256k1 field prime `P = 2^256 - 2^32 - 977`. -/
def secpP : ℕ :=
  115792089237316195423570985008687907853269984665640564039457584007908834671663

/-- The low-s bound literal `0x7FFFFFFF...5D576E7357A4501DDFE92F46681B20A0`
appearing in `ECDSA.prototype.sign`. -/
def lowSBound : ℕ :=
  57896044618658097711785492504343953926418782139537452191302581570759080747168

/-- The x-coordinate of the standard secp256k1 base point `G`. -/
def secpGx : ℕ :=
  55066263022277343669578718895168534326250603453777594175500187360389116729240

/-- The y-coordinate of the standard secp256k1 base point `G`. -/
def secpGy : ℕ :=
  32670510020758816978083085130507043184471273380659243275938904335757337482424

/-! ## Fast modular exponentiation

The kernel cannot evaluate `ZMod` powers with 256-bit exponents, so concrete
computations go through a structurally recursive square-and-multiply function
with an explicit fuel bounding the bit length of the exponent. -/

/-- Square-and-multiply auxiliary: `powModAux m fuel a e = a ^ e % m`
provided `e < 2 ^ fuel`. -/
def powModAux (m : ℕ) : ℕ → ℕ → ℕ → ℕ
  | 0, _, _ => 1 % m
  | fuel + 1, a, e =>
    if e = 0 then 1 % m
    else if e % 2 = 0 then powModAux m fuel (a * a % m) (e / 2)
    else a * powModAux m fuel (a * a % m) (e / 2) % m

/-- Here `powMod m a e = a ^ e % m` for all exponents below `2 ^ 320`. -/
def powMod (m a e : ℕ) : ℕ :=
  powModAux m 320 (a % m) e

theorem powModAux_eq (m : ℕ) :
    ∀ fuel a e, e < 2 ^ fuel → powModAux m fuel a e = a ^ e % m := by
  intro fuel
  induction fuel with
  | zero =>
    intro a e he
    interval_cases e
    simp [powModAux]
  | succ fuel ih =>
    intro a e he
    rw [powModAux]
    by_cases he0 : e = 0
    · simp [he0]
    · have hdiv : e / 2 < 2 ^ fuel := by
        rw [Nat.div_lt_iff_lt_mul (by norm_num)]
        calc e < 2 ^ (fuel + 1) := he
        _ = 2 ^ fuel * 2 := by ring
      have hrec := ih (a * a % m) (e / 2) hdiv
      have hpow : (a * a % m) ^ (e / 2) % m = (a * a) ^ (e / 2) % m :=
        (Nat.pow_mod (a * a) (e / 2) m).symm
      have hsq : (a * a) ^ (e / 2) = a ^ (2 * (e / 2)) := by
        rw [pow_mul, sq]
      by_cases hpar : e % 2 = 0
      · have he2 : 2 * (e / 2) = e := by omega
        simp only [he0, if_false, hpar, if_true]
        rw [hrec, hpow, hsq, he2]
      · simp only [he0, if_false, hpar, if_false]
        rw [hrec, hpow]
        have h3 : a * ((a * a) ^ (e / 2) % m) % m = a * (a * a) ^ (e / 2) % m :=
          Nat.ModEq.mul_left a (Nat.mod_modEq _ m)
        rw [h3, hsq, ← pow_succ']
        have hexp : 2 * (e / 2) + 1 = e := by omega
        rw [hexp]

theorem powMod_eq (m a e : ℕ) (he : e < 2 ^ 320) : powMod m a e = a ^ e % m := by
  rw [powMod, powModAux_eq m 320 (a % m) e he, ← Nat.pow_mod]

/-! ## Primality of the curve order

`Nat.Prime secpN` is established by a Pratt/Lucas certificate chain, with
`powMod` providing kernel-computable modular exponentiation. -/

/-- Lucas primality certificate: `p` is prime if some `a` has order `p - 1`
modulo `p`, checked against the complete prime factorisation `qs` of `p - 1`. -/
theorem lucasCert (p a : ℕ) (qs : List ℕ)
    (hp2 : 2 ≤ p) (hsize : p ≤ 2 ^ 320)
    (hfac : qs.prod = p - 1)
    (hqs : ∀ q ∈ qs, Nat.Prime q)
    (hpow : powMod p a (p - 1) = 1)
    (hneq : ∀ q ∈ qs, powMod p a ((p - 1) / q) ≠ 1) :
    Nat.Prime p := by
  have hlt : ∀ e, e ≤ p - 1 → e < 2 ^ 320 := fun e he => lt_of_le_of_lt he (by omega)
  have h1p : 1 % p = 1 := Nat.mod_eq_of_lt (by omega)
  have hcast : ∀ e : ℕ, e < 2 ^ 320 → ((a : ZMod p) ^ e = 1 ↔ powMod p a e = 1) := by
    intro e he
    rw [← Nat.cast_pow, show (1 : ZMod p) = ((1 : ℕ) : ZMod p) by simp,
      ZMod.natCast_eq_natCast_iff', powMod_eq p a e he, h1p]
  apply lucas_primality p (a : ZMod p)
  · exact (hcast (p - 1) (hlt _ le_rfl)).2 hpow
  · intro q hq hdvd
    have hmem : q ∈ qs := by
      apply mem_list_primes_of_dvd_prod hq.prime
      · intro r hr; exact (hqs r hr).prime
      · rw [hfac]; exact hdvd
    intro hcontra
    exact hneq q hmem ((hcast ((p - 1) / q) (hlt _ (Nat.div_le_self _ _))).1 hcontra)

theorem prime_16699 : Nat.Prime 16699 := by norm_num

theorem prime_85831 : Nat.Prime 85831 := by norm_num

theorem prime_2011 : Nat.Prime 2011 := by norm_num

theorem prime_4681609 : Nat.Prime 4681609 :=
  lucasCert 4681609 23 [2, 2, 2, 3, 97, 2011]
    (by norm_num) (by norm_num) (by decide)
    (by intro q hq
        simp only [List.mem_cons, List.not_mem_nil, or_false] at hq
        rcases hq with rfl | rfl | rfl | rfl | rfl | rfl
        · norm_num
        · norm_num
        · norm_num
        · norm_num
        · norm_num
        · exact prime_2011
    )
    (by decide) (by decide)

theorem prime_120233 : Nat.Prime 120233 := by norm_num

theorem prime_9349 : Nat.Prime 9349 := by norm_num

theorem prime_44706919 : Nat.Prime 44706919 :=
  lucasCert 44706919 6 [2, 3, 797, 9349]
    (by norm_num) (by norm_num) (by decide)
    (by intro q hq
        simp only [List.mem_cons, List.not_mem_nil, or_false] at hq
        rcases hq with rfl | rfl | rfl | rfl
        · norm_num
        · norm_num
        · norm_num
        · exact prime_9349
    )
    (by decide) (by decide)

theorem prime_305873 : Nat.Prime 305873 := by norm_num

theorem prime_28181 : Nat.Prime 28181 := by norm_num

theorem prime_545358713 : Nat.Prime 545358713 :=
  lucasCert 545358713 5 [2, 2, 2, 41, 59, 28181]
    (by norm_num) (by norm_num) (by decide)
    (by intro q hq
        simp only [List.mem_cons, List.not_mem_nil, or_false] at hq
        rcases hq with rfl | rfl | rfl | rfl | rfl | rfl
        · norm_num
        · norm_num
        · norm_num
        · norm_num
        · norm_num
        · exact prime_28181
    )
    (by decide) (by decide)

theorem prime_297159362677 : Nat.Prime 297159362677 :=
  lucasCert 297159362677 2 [2, 2, 3, 3, 11, 461, 1627771]
    (by norm_num) (by norm_num) (by decide)
    (by intro q hq
        simp only [List.mem_cons, List.not_mem_nil, or_false] at hq
        rcases hq with rfl | rfl | rfl | rfl | rfl | rfl | rfl
        · norm_num
        · norm_num
        · norm_num
        · norm_num
        · norm_num
        · norm_num
        · norm_num
    )
    (by decide) (by decide)

theorem prime_29047611873442575647497758179 : Nat.Prime 29047611873442575647497758179 :=
  lucasCert 29047611873442575647497758179 2 [2, 293, 305873, 545358713, 297159362677]
    (by norm_num) (by norm_num) (by decide)
    (by intro q hq
        simp only [List.mem_cons, List.not_mem_nil, or_false] at hq
        rcases hq with rfl | rfl | rfl | rfl | rfl
        · norm_num
        · norm_num
        · exact prime_305873
        · exact prime_545358713
        · exact prime_297159362677
    )
    (by decide) (by decide)

theorem prime_341948486974166000522343609283189 : Nat.Prime 341948486974166000522343609283189 :=
  lucasCert 341948486974166000522343609283189 2 [2, 2, 3, 3, 3, 109, 29047611873442575647497758179]
    (by norm_num) (by norm_num) (by decide)
    (by intro q hq
        simp only [List.mem_cons, List.not_mem_nil, or_false] at hq
        rcases hq with rfl | rfl | rfl | rfl | rfl | rfl | rfl
        · norm_num
        · norm_num
        · norm_num
        · norm_num
        · norm_num
        · norm_num
        · exact prime_29047611873442575647497758179
    )
    (by decide) (by decide)

theorem prime_174723607534414371449 : Nat.Prime 174723607534414371449 :=
  lucasCert 174723607534414371449 3 [2, 2, 2, 17, 59, 4051, 120233, 44706919]
    (by norm_num) (by norm_num) (by decide)
    (by intro q hq
        simp only [List.mem_cons, List.not_mem_nil, or_false] at hq
        rcases hq with rfl | rfl | rfl | rfl | rfl | rfl | rfl | rfl
        · norm_num
        · norm_num
        · norm_num
        · norm_num
        · norm_num
        · norm_num
        · exact prime_120233
        · exact prime_44706919
    )
    (by decide) (by decide)

theorem prime_107361793816595537 : Nat.Prime 107361793816595537 :=
  lucasCert 107361793816595537 3 [2, 2, 2, 2, 16699, 85831, 4681609]
    (by norm_num) (by norm_num) (by decide)
    (by intro q hq
        simp only [List.mem_cons, List.not_mem_nil, or_false] at hq
        rcases hq with rfl | rfl | rfl | rfl | rfl | rfl | rfl
        · norm_num
        · norm_num
        · norm_num
        · norm_num
        · norm_num
        · norm_num
        · exact prime_4681609
    )
    (by decide) (by decide)

/-- The order of the secp256k1 group is prime. -/
theorem secpN_prime : Nat.Prime secpN :=
  lucasCert secpN 7
    [2, 2, 2, 2, 2, 2, 3, 149, 631,
      107361793816595537, 174723607534414371449, 341948486974166000522343609283189]
    (by norm_num [secpN]) (by norm_num [secpN]) (by decide)
    (by intro q hq
        simp only [List.mem_cons, List.not_mem_nil, or_false] at hq
        rcases hq with rfl | rfl | rfl | rfl | rfl | rfl | rfl | rfl | rfl | rfl | rfl | rfl
        · norm_num
        · norm_num
        · norm_num
        · norm_num
        · norm_num
        · norm_num
        · norm_num
        · norm_num
        · norm_num
        · exact prime_107361793816595537
        · exact prime_174723607534414371449
        · exact prime_341948486974166000522343609283189
    )
    (by decide) (by decide)

instance secpN_fact_prime : Fact (Nat.Prime secpN) :=
  ⟨secpN_prime⟩

/-! ## Byte buffers

JavaScript `Buffer` values are modelled as `List ℕ` of byte values.
`beNat` is `BN().fromBuffer(buf)` (big-endian) and `beBytes 32` is
`bn.toBuffer({size: 32})` (fixed-size big-endian). -/

/-- Big-endian interpretation of a byte buffer as a natural number
(`BN().fromBuffer(buf)`). -/
def beNat (buf : List ℕ) : ℕ :=
  buf.foldl (fun acc b => acc * 256 + b) 0

/-- Auxiliary: `beBytesAux k x` is the `k`-byte big-endian encoding of `x % 256 ^ k`. -/
def beBytesAux : ℕ → ℕ → List ℕ
  | 0, _ => []
  | k + 1, x => beBytesAux k (x / 256) ++ [x % 256]

/-- Modelled from the spec: `BN.prototype.toBuffer({size: 32})` of the
external big-number collaborator — "fixed 32-byte big-endian is the
canonical form". -/
def beBytes (size x : ℕ) : List ℕ :=
  beBytesAux size x

theorem beBytesAux_length (k : ℕ) : ∀ x, (beBytesAux k x).length = k := by
  induction k with
  | zero => intro x; rfl
  | succ k ih => intro x; simp [beBytesAux, ih]

theorem beBytes_length (size x : ℕ) : (beBytes size x).length = size :=
  beBytesAux_length size x

/-! ## Hex strings

JavaScript's `buf.toString('hex')` and decimal number-to-string coercion,
modelled as `List Char` producers (a JS string is its character sequence). -/

/-- One lower-case hex digit. -/
def hexDigit (n : ℕ) : Char :=
  Char.ofNat (if n < 10 then 48 + n else 87 + n)

/-- The two hex characters of one byte. -/
def byteHexChars (b : ℕ) : List Char :=
  [hexDigit (b / 16), hexDigit (b % 16)]

/-- Model of `buf.toString('hex')`. -/
def hexChars : List ℕ → List Char
  | [] => []
  | b :: rest => byteHexChars b ++ hexChars rest

/-- Decimal digits of `n`, most significant first, with explicit fuel
(the recursion divides by ten). -/
def decCharsAux : ℕ → ℕ → List Char
  | 0, _ => []
  | fuel + 1, n =>
    if n < 10 then [Char.ofNat (48 + n)]
    else decCharsAux fuel (n / 10) ++ [Char.ofNat (48 + n % 10)]

/-- JavaScript coercion of a nonnegative integer to its decimal string. -/
def decChars (n : ℕ) : List Char :=
  decCharsAux (n + 1) n

/-- JavaScript `'' + n` as a Lean `String`. -/
def jsNumStr (n : ℕ) : String :=
  ⟨decChars n⟩

/-! ## Public-key codec (`pubkey.js`)

The curve-point collaborator `point.js` is not among the sources; for the
codec a point is its pair of affine coordinates, which is all the codec
reads and writes (`Point(x, y)`, `getX()`, `getY()`, `Point.fromX`). -/

/-- A `Pubkey` as the codec sees it: an optional point (unset on a fresh
`Pubkey()`) and the optional `compressed` flag (`undefined`/`true`/`false`). -/
structure PubkeyA where
  point : Option (ℕ × ℕ)
  compressed : Option Bool
deriving DecidableEq, Repr

/-- Modelled from the spec: `Point.fromX(odd, x)` of the external curve-point
collaborator — "lift-from-X given the parity of y".  The square-root candidate
of `x³ + 7` is computed with the exponent `(P+1)/4` (valid since
`P ≡ 3 mod 4`); if `x³ + 7` has no square root the lift fails. -/
def affineFromX (odd : Bool) (x : ℕ) : Except String (ℕ × ℕ) :=
  let xr := x % secpP
  let rhs := (powMod secpP xr 3 + 7) % secpP
  let y0 := powMod secpP rhs ((secpP + 1) / 4)
  if y0 * y0 % secpP ≠ rhs then Except.error "invalid point"
  else
    let y := if (y0 % 2 == 1) = odd then y0 else (secpP - y0) % secpP
    Except.ok (xr, y)

/-- Source `Pubkey.prototype.fromDER(buf, strict)`.  The JS argument `strict` is
`undefined` (omitted) or a passed value; the source sets `strict = true`
when the argument is `undefined` and `strict = false` otherwise. -/
def pubkeyFromDER (buf : List ℕ) (strict : Option Bool) : Except String PubkeyA :=
  let strictB : Bool := strict.isNone
  match buf with
  | [] => Except.error "Invalid DER format pubkey"
  | b0 :: rest =>
    if b0 = 4 ∨ (strictB = false ∧ (b0 = 6 ∨ b0 = 7)) then
      let xbuf := rest.take 32
      let ybuf := (rest.drop 32).take 32
      if xbuf.length ≠ 32 ∨ ybuf.length ≠ 32 ∨ buf.length ≠ 65 then
        Except.error "Length of x and y must be 32 bytes"
      else Except.ok ⟨some (beNat xbuf, beNat ybuf), some false⟩
    else if b0 = 3 then
      (affineFromX true (beNat rest)).map fun pt => ⟨some pt, some true⟩
    else if b0 = 2 then
      (affineFromX false (beNat rest)).map fun pt => ⟨some pt, some true⟩
    else Except.error "Invalid DER format pubkey"

/-- Source `Pubkey.prototype.toDER(compressed)`.  A `none` argument models an
omitted argument (the source then falls back to `this.compressed`); a
non-boolean resolved value throws. -/
def pubkeyToDER (pk : PubkeyA) (compressed : Option Bool) : Except String (List ℕ) :=
  let c := match compressed with
    | none => pk.compressed
    | some b => some b
  match c with
  | none =>
    Except.error "Must specify whether the public key is compressed or not (true or false)"
  | some cb =>
    match pk.point with
    | none => Except.error "TypeError: point is not set"
    | some (x, y) =>
      if x ≥ 256 ^ 32 ∨ y ≥ 256 ^ 32 then
        Except.error "byte array longer than desired length"
      else
        let xbuf := beBytes 32 x
        let ybuf := beBytes 32 y
        if cb = false then Except.ok (4 :: (xbuf ++ ybuf))
        else
          let odd := ybuf.getLastD 0 % 2
          Except.ok ((if odd = 1 then 3 else 2) :: xbuf)

/-- Source `Pubkey.prototype.toBuffer()`: an undefined `compressed` flag defaults
to `true`, then delegates to `toDER`. -/
def pubkeyToBuffer (pk : PubkeyA) : Except String (List ℕ) :=
  pubkeyToDER pk (some (pk.compressed.getD true))

/-- Source `Pubkey.prototype.toString()`: hex of `toDER(compressed-default-true)`. -/
def pubkeyToStringHex (pk : PubkeyA) : Except String String :=
  (pubkeyToBuffer pk).map fun bytes => ⟨hexChars bytes⟩

/-- Source `Pubkey.prototype.toFastBuffer()`: empty buffer when the point is unset,
otherwise one flag byte (`Number(compressed)`, defaulting the flag to `true`)
followed by the uncompressed DER. -/
def pubkeyToFastBuffer (pk : PubkeyA) : Except String (List ℕ) :=
  match pk.point with
  | none => Except.ok []
  | some _ =>
    let c := pk.compressed.getD true
    (pubkeyToDER pk (some false)).map fun der => (if c then 1 else 0) :: der

/-- Source `Pubkey.prototype.fromFastBuffer(buf)`: an empty buffer leaves the key
unchanged; otherwise the source drops the first byte via `buf = buf.slice(1)`,
decodes the remainder as DER, and then reads `Boolean(buf[0])` — note that
`buf` has already been re-bound to the sliced buffer at that point. -/
def pubkeyFromFastBuffer (pk : PubkeyA) (buf : List ℕ) : Except String PubkeyA :=
  if buf = [] then Except.ok pk
  else
    let rest := buf.drop 1
    (pubkeyFromDER rest none).map fun pk' =>
      { pk' with compressed := some (decide (rest.headD 0 ≠ 0)) }

/-- A 65-byte hybrid-prefix buffer carrying the base point coordinates. -/
def hybridGBuf : List ℕ := 6 :: (beBytes 32 secpGx ++ beBytes 32 secpGy)

/-- C2 counterexample: the claim states a hybrid 65-byte buffer decodes iff the
strict argument is the value `false`; but passing `strict = true` also decodes. -/
theorem claim_C2_counterexample :
    (pubkeyFromDER hybridGBuf (some true)).isOk = true := rfl

/-- C2 (amended): a 65-byte buffer with first byte 0x06 or 0x07 decodes iff the
`strict` argument was passed at all (with either value); when the argument is
omitted, strict mode applies and the buffer is rejected. -/
theorem claim_C2 (buf : List ℕ) (b0 : ℕ) (b : Bool)
    (hhead : buf.head? = some b0) (hb : b0 = 6 ∨ b0 = 7) (hlen : buf.length = 65) :
    (pubkeyFromDER buf (some b)).isOk = true ∧ (pubkeyFromDER buf none).isOk = false := by
  rcases buf with _ | ⟨c, rest⟩
  · simp at hhead
  have hc : c = b0 := by simpa using hhead
  subst hc
  have hrest : rest.length = 64 := by simpa using hlen
  constructor
  · have hcond : (c = 4 ∨ ((some b : Option Bool).isNone = false ∧ (c = 6 ∨ c = 7))) :=
      Or.inr ⟨rfl, hb⟩
    have h1 : (rest.take 32).length = 32 := by
      simp [List.length_take, hrest]
    have h2 : ((rest.drop 32).take 32).length = 32 := by
      simp [List.length_take, List.length_drop, hrest]
    rw [pubkeyFromDER]
    simp only [if_pos hcond]
    rw [if_neg]
    · rfl
    · push_neg
      exact ⟨h1, h2, hlen⟩
  · have hcond : ¬(c = 4 ∨ ((none : Option Bool).isNone = false ∧ (c = 6 ∨ c = 7))) := by
      rcases hb with rfl | rfl <;> simp
    rw [pubkeyFromDER]
    simp only [if_neg hcond]
    rcases hb with rfl | rfl <;> rfl

/-- C2 witness: instantiating the amended claim on the concrete hybrid buffer. -/
theorem claim_C2_witness :
    (pubkeyFromDER hybridGBuf (some false)).isOk = true ∧
      (pubkeyFromDER hybridGBuf none).isOk = false :=
  claim_C2 hybridGBuf 6 false rfl (Or.inl rfl) (by rfl)

/-- A 34-byte buffer: prefix 0x02, a zero pad byte, then the 32-byte x of G. -/
def oversizedCompressedBuf : List ℕ := 2 :: 0 :: beBytes 32 secpGx

/-- C7 counterexample: the claim states every 0x02-prefixed buffer whose length
is not 33 bytes fails with a codec error; this 34-byte buffer decodes
successfully (to the base point). -/
theorem claim_C7_counterexample :
    pubkeyFromDER oversizedCompressedBuf none =
      Except.ok ⟨some (secpGx, secpGy), some true⟩ := rfl

/-- C7 (amended): a buffer whose prefix selects the uncompressed branch (0x04,
or 0x06/0x07 with the strict argument passed) fails with the length codec error
when its total length is not 65; a prefix outside 0x02/0x03/0x04 (and outside
0x06/0x07 when the argument is passed) fails with the invalid-format codec
error; but a 0x02-prefixed buffer is handed to lift-from-X without any length
check, so its decoding does not depend on the buffer length being 33. -/
theorem claim_C7 :
    (∀ (buf : List ℕ) (strict : Option Bool) (b0 : ℕ), buf.head? = some b0 →
      (b0 = 4 ∨ (strict ≠ none ∧ (b0 = 6 ∨ b0 = 7))) → buf.length ≠ 65 →
      pubkeyFromDER buf strict = Except.error "Length of x and y must be 32 bytes") ∧
    (∀ (buf : List ℕ) (strict : Option Bool) (b0 : ℕ), buf.head? = some b0 →
      b0 ≠ 2 → b0 ≠ 3 → b0 ≠ 4 → (strict = none ∨ (b0 ≠ 6 ∧ b0 ≠ 7)) →
      pubkeyFromDER buf strict = Except.error "Invalid DER format pubkey") ∧
    (∀ (strict : Option Bool) (rest : List ℕ),
      pubkeyFromDER (2 :: rest) strict =
        (affineFromX false (beNat rest)).map fun pt => ⟨some pt, some true⟩) := by
  refine ⟨?_, ?_, ?_⟩
  · intro buf strict b0 hhead hb hlen
    rcases buf with _ | ⟨c, rest⟩
    · simp at hhead
    have hc : c = b0 := by simpa using hhead
    subst hc
    have hcond : (c = 4 ∨ ((strict : Option Bool).isNone = false ∧ (c = 6 ∨ c = 7))) := by
      rcases hb with rfl | ⟨hs, h67⟩
      · exact Or.inl rfl
      · refine Or.inr ⟨?_, h67⟩
        cases strict with
        | none => exact absurd rfl hs
        | some _ => rfl
    rw [pubkeyFromDER]
    simp only [if_pos hcond]
    rw [if_pos]
    exact Or.inr (Or.inr hlen)
  · intro buf strict b0 hhead h2 h3 h4 hrest
    rcases buf with _ | ⟨c, rest⟩
    · simp at hhead
    have hc : c = b0 := by simpa using hhead
    subst hc
    have hcond : ¬(c = 4 ∨ ((strict : Option Bool).isNone = false ∧ (c = 6 ∨ c = 7))) := by
      rcases hrest with rfl | ⟨h6, h7⟩
      · simp [h4]
      · rintro (rfl | ⟨_, rfl | rfl⟩) <;> simp_all
    rw [pubkeyFromDER]
    simp only [if_neg hcond, if_neg h3, if_neg h2]
  · intro strict rest
    rw [pubkeyFromDER]
    have hcond : ¬((2 : ℕ) = 4 ∨ ((strict : Option Bool).isNone = false ∧ ((2 : ℕ) = 6 ∨ (2 : ℕ) = 7))) := by
      simp
    simp only [if_neg hcond]
    norm_num

/-- C7 witness: the amended claim at concrete inputs — a 1-byte 0x04 buffer, a
0x05-prefixed buffer, and a 0x02-prefixed buffer with a 1-byte body. -/
theorem claim_C7_witness :
    pubkeyFromDER [4] none = Except.error "Length of x and y must be 32 bytes" ∧
    pubkeyFromDER [5] none = Except.error "Invalid DER format pubkey" ∧
    pubkeyFromDER [2, 1] none =
      (affineFromX false (beNat [1])).map fun pt => ⟨some pt, some true⟩ :=
  ⟨claim_C7.1 [4] none 4 rfl (Or.inl rfl) (by norm_num),
   claim_C7.2.1 [5] none 5 rfl (by norm_num) (by norm_num) (by norm_num) (Or.inl rfl),
   claim_C7.2.2 none [1]⟩

/-- C10: a `Pubkey` with a set point and an undefined `compressed` flag is
serialized by `toBuffer` and `toString` in the compressed SEC1 form — 33
bytes whose first byte is 0x02 or 0x03 — i.e. the public serialization
defaults to compressed = true. -/
theorem claim_C10 (pk : PubkeyA) (x y : ℕ) (hpt : pk.point = some (x, y))
    (hc : pk.compressed = none) (hx : x < 256 ^ 32) (hy : y < 256 ^ 32) :
    pubkeyToBuffer pk = pubkeyToDER pk (some true) ∧
    (∃ bytes, pubkeyToBuffer pk = Except.ok bytes ∧ bytes.length = 33 ∧
      (bytes.head? = some 2 ∨ bytes.head? = some 3)) ∧
    pubkeyToStringHex pk = (pubkeyToDER pk (some true)).map fun bytes => ⟨hexChars bytes⟩ := by
  have htb : pubkeyToBuffer pk = pubkeyToDER pk (some true) := by
    rw [pubkeyToBuffer, hc]
    rfl
  refine ⟨htb, ?_, ?_⟩
  · rw [htb, pubkeyToDER, hpt]
    have hbnd : ¬(x ≥ 256 ^ 32 ∨ y ≥ 256 ^ 32) := by push_neg; exact ⟨hx, hy⟩
    simp only [if_neg hbnd]
    set odd := (beBytes 32 y).getLastD 0 % 2 with hodd
    by_cases h1 : odd = 1
    · exact ⟨3 :: beBytes 32 x, by simp [h1], by simp [beBytes_length], Or.inr rfl⟩
    · exact ⟨2 :: beBytes 32 x, by simp [h1], by simp [beBytes_length], Or.inl rfl⟩
  · rw [pubkeyToStringHex, htb]

/-- C10 witness: the defaulting behaviour at the base point with an unset flag. -/
theorem claim_C10_witness :
    pubkeyToBuffer ⟨some (secpGx, secpGy), none⟩ =
      pubkeyToDER ⟨some (secpGx, secpGy), none⟩ (some true) ∧
    (∃ bytes, pubkeyToBuffer ⟨some (secpGx, secpGy), none⟩ = Except.ok bytes ∧
      bytes.length = 33 ∧ (bytes.head? = some 2 ∨ bytes.head? = some 3)) ∧
    pubkeyToStringHex ⟨some (secpGx, secpGy), none⟩ =
      (pubkeyToDER ⟨some (secpGx, secpGy), none⟩ (some true)).map fun bytes => ⟨hexChars bytes⟩ :=
  claim_C10 ⟨some (secpGx, secpGy), none⟩ secpGx secpGy rfl rfl (by norm_num [secpGx])
    (by norm_num [secpGy])

/-- C3 (code bug): serializing a `Pubkey` whose `compressed` flag is `false`
through the fast-buffer form and decoding it back yields the same point but
`compressed = true`: `fromFastBuffer` reads the flag byte from the buffer
*after* it was sliced off, so it actually reads the DER prefix 0x04, which is
truthy.  The spec requires the fast-buffer form to round-trip exactly. -/
theorem claim_C3 :
    (do
      let fb ← pubkeyToFastBuffer ⟨some (secpGx, secpGy), some false⟩
      pubkeyFromFastBuffer ⟨none, none⟩ fb : Except String PubkeyA) =
      Except.ok ⟨some (secpGx, secpGy), some true⟩ := rfl

/-! ## Transaction verifier (`txverifier.js`)

The transaction structure `tx.js` is opaque to the verifier; per the spec it
reads: the inputs (hash, output index, script), the declared varint counts,
the outputs (value, script), the serialized size and the coinbase predicate.
`Interp` (the script interpreter) and the UTXO map are external collaborators
passed as functions. -/

/-- A transaction input as the verifier reads it. -/
structure TxinM where
  txhashbuf : List ℕ
  txoutnum : ℕ
  script : List ℕ
deriving DecidableEq, Repr

/-- A transaction output as the verifier reads it: `valuebn` is a big number
that the source compares against negative values, hence `ℤ`. -/
structure TxoutM where
  valuebn : ℤ
  script : List ℕ
deriving DecidableEq, Repr

/-- The fields of `Tx` the verifier reads.  `size` models
`tx.toBuffer().length` and `coinbase` models `tx.isCoinbase()`; both are
computed by the external `Tx` collaborator (spec: "Transaction (opaque to
this spec)"). -/
structure TxM where
  txins : List TxinM
  txinsvi : ℕ
  txouts : List TxoutM
  txoutsvi : ℕ
  size : ℕ
  coinbase : Bool
deriving DecidableEq, Repr

/-- Modelled from the spec: `Txin.prototype.hasNullInput` of the external
transaction-input collaborator — "the zero 32-byte hash with index
0xFFFFFFFF". -/
def txinHasNullInput (t : TxinM) : Bool :=
  t.txhashbuf == List.replicate 32 0 && t.txoutnum == 4294967295

/-- The duplicate-detection key of an input:
`txin.txhashbuf.toString('hex') + ':' + txin.txoutnum`. -/
def txInputIdChars (t : TxinM) : List Char :=
  hexChars t.txhashbuf ++ ':' :: decChars t.txoutnum

/-- The output-value scan of `checkstr`: for each output in order, check
negative value, value over `MAX_MONEY`, then the running sum over
`MAX_MONEY`. -/
def txCheckOutLoop (maxMoney : ℤ) : ℕ → ℤ → List TxoutM → Option String
  | _, _, [] => none
  | i, acc, o :: rest =>
    if o.valuebn < 0 then some ("transaction txout " ++ jsNumStr i ++ " negative")
    else if o.valuebn > maxMoney then
      some ("transaction txout " ++ jsNumStr i ++ " greater than MAX_MONEY")
    else
      let acc' := acc + o.valuebn
      if acc' > maxMoney then
        some ("transaction txout " ++ jsNumStr i ++ " total output greater than MAX_MONEY")
      else txCheckOutLoop maxMoney (i + 1) acc' rest

/-- The duplicate-input scan of `checkstr`: the source fills a JS object with
the already-seen input keys (modelled as the list of seen keys). -/
def txCheckDupLoop : ℕ → List (List Char) → List TxinM → Option String
  | _, _, [] => none
  | i, seen, t :: rest =>
    if txInputIdChars t ∈ seen then
      some ("transaction input " ++ jsNumStr i ++ " duplicate input")
    else txCheckDupLoop (i + 1) (txInputIdChars t :: seen) rest

/-- The null-input scan of the non-coinbase branch of `checkstr` (the
misspelling "tranasction" is the source's). -/
def txCheckNullLoop : ℕ → List TxinM → Option String
  | _, [] => none
  | i, t :: rest =>
    if txinHasNullInput t then
      some ("tranasction input " ++ jsNumStr i ++ " has null input")
    else txCheckNullLoop (i + 1) rest

/-- Source `Txverifier.prototype.checkstr` (the misspelling "trasaction" is the
source's).  `maxBlockSize` and `maxMoney` are the external network constants
`Block.MAX_BLOCK_SIZE` and `Tx.MAX_MONEY`.  The empty-`txins` case of the
coinbase branch is unreachable: the first check already returned. -/
def txCheckstr (maxBlockSize : ℕ) (maxMoney : ℤ) (tx : TxM) : Option String :=
  if tx.txins.length = 0 ∨ tx.txinsvi = 0 then some "transaction txins empty"
  else if tx.txouts.length = 0 ∨ tx.txoutsvi = 0 then some "transaction txouts empty"
  else if tx.size > maxBlockSize then some "transaction over the maximum block size"
  else
    match txCheckOutLoop maxMoney 0 0 tx.txouts with
    | some d => some d
    | none =>
      match txCheckDupLoop 0 [] tx.txins with
      | some d => some d
      | none =>
        if tx.coinbase then
          match tx.txins with
          | [] => none
          | t :: _ =>
            if t.script.length < 2 ∨ t.script.length > 100 then
              some "coinbase trasaction script size invalid"
            else none
        else txCheckNullLoop 0 tx.txins

/-- Source `Txverifier.prototype.verifynin`: a missing input index or a missing
UTXO-map entry makes the subsequent `.script` access throw (`Except.error`);
otherwise the external interpreter decides. -/
def txVerifynin (interp : List ℕ → List ℕ → TxM → ℕ → ℕ → Bool)
    (tx : TxM) (txoutmap : List ℕ → ℕ → Option TxoutM) (nin flags : ℕ) :
    Except Unit Bool :=
  match tx.txins[nin]? with
  | none => Except.error ()
  | some txin =>
    match txoutmap txin.txhashbuf txin.txoutnum with
    | none => Except.error ()
    | some out => Except.ok (interp txin.script out.script tx nin flags)

/-- The input loop of `verifystr`, iterating `nin` over the input indices. -/
def txVerifystrAux (interp : List ℕ → List ℕ → TxM → ℕ → ℕ → Bool)
    (tx : TxM) (txoutmap : List ℕ → ℕ → Option TxoutM) (flags : ℕ) :
    ℕ → ℕ → Except Unit (Option String)
  | _, 0 => Except.ok none
  | i, rem + 1 =>
    match txVerifynin interp tx txoutmap i flags with
    | Except.error e => Except.error e
    | Except.ok false =>
      Except.ok (some ("input " ++ jsNumStr i ++ " failed script verify"))
    | Except.ok true => txVerifystrAux interp tx txoutmap flags (i + 1) rem

/-- Source `Txverifier.prototype.verifystr`: returns a diagnostic (`some`) when
some input fails script verification, `none` when all pass; exceptions from
missing lookups propagate. -/
def txVerifystr (interp : List ℕ → List ℕ → TxM → ℕ → ℕ → Bool)
    (tx : TxM) (txoutmap : List ℕ → ℕ → Option TxoutM) (flags : ℕ) :
    Except Unit (Option String) :=
  txVerifystrAux interp tx txoutmap flags 0 tx.txins.length

/-- Source `Txverifier.prototype.verify`:
`!this.checkstr() && !this.verifystr(flags)` — note the JS `&&`
short-circuits, so `verifystr` does not run when `checkstr` failed. -/
def txVerify (interp : List ℕ → List ℕ → TxM → ℕ → ℕ → Bool)
    (maxBlockSize : ℕ) (maxMoney : ℤ) (tx : TxM)
    (txoutmap : List ℕ → ℕ → Option TxoutM) (flags : ℕ) : Except Unit Bool :=
  match txCheckstr maxBlockSize maxMoney tx with
  | some _ => Except.ok false
  | none => (txVerifystr interp tx txoutmap flags).map Option.isNone

theorem txVerifystrAux_ok (interp : List ℕ → List ℕ → TxM → ℕ → ℕ → Bool)
    (tx : TxM) (txoutmap : List ℕ → ℕ → Option TxoutM) (flags : ℕ) :
    ∀ rem i, i + rem ≤ tx.txins.length →
      (∀ j, j < tx.txins.length → txVerifynin interp tx txoutmap j flags ≠ Except.error ()) →
      ∃ d, txVerifystrAux interp tx txoutmap flags i rem = Except.ok d := by
  intro rem
  induction rem with
  | zero => intro i _ _; exact ⟨none, rfl⟩
  | succ rem ih =>
    intro i hle hnoerr
    rw [txVerifystrAux]
    have hi : i < tx.txins.length := by omega
    rcases hv : txVerifynin interp tx txoutmap i flags with e | b
    · exact absurd (by rw [hv]) (hnoerr i hi)
    · cases b with
      | false => exact ⟨_, rfl⟩
      | true => exact ih (i + 1) (by omega) hnoerr

theorem txVerifystrAux_error (interp : List ℕ → List ℕ → TxM → ℕ → ℕ → Bool)
    (tx : TxM) (txoutmap : List ℕ → ℕ → Option TxoutM) (flags : ℕ) :
    ∀ rem i pos, i ≤ pos → pos < i + rem →
      txVerifynin interp tx txoutmap pos flags = Except.error () →
      (∀ j, i ≤ j → j < pos → txVerifynin interp tx txoutmap j flags = Except.ok true) →
      txVerifystrAux interp tx txoutmap flags i rem = Except.error () := by
  intro rem
  induction rem with
  | zero => intro i pos h1 h2; omega
  | succ rem ih =>
    intro i pos h1 h2 herr hbefore
    rw [txVerifystrAux]
    by_cases hip : i = pos
    · subst hip
      rw [herr]
    · have : txVerifynin interp tx txoutmap i flags = Except.ok true :=
        hbefore i le_rfl (by omega)
      rw [this]
      exact ih (i + 1) pos (by omega) (by omega) herr
        (fun j hj1 hj2 => hbefore j (by omega) hj2)

/-- C4 counterexample: a transaction whose single input references a prevout
missing from the UTXO map makes `verifystr` throw (`Except.error`) instead of
returning a diagnostic — refuting "verification never throws". -/
theorem claim_C4_counterexample :
    txVerifystr (fun _ _ _ _ _ => true)
      ⟨[⟨List.replicate 32 1, 0, []⟩], 1, [⟨1, []⟩], 1, 60, false⟩
      (fun _ _ => none) 0 = Except.error () := rfl

/-- C4 (amended): a missing UTXO lookup is a thrown error, not a returned
diagnostic: when every input's lookup is present `verifystr` returns a
diagnostic value (never throws), and when the lookup of input `i` is missing
while all earlier inputs pass script verification, `verifystr` throws. -/
theorem claim_C4 (interp : List ℕ → List ℕ → TxM → ℕ → ℕ → Bool)
    (tx : TxM) (txoutmap : List ℕ → ℕ → Option TxoutM) (flags : ℕ) :
    ((∀ txin ∈ tx.txins, (txoutmap txin.txhashbuf txin.txoutnum).isSome) →
      ∃ d, txVerifystr interp tx txoutmap flags = Except.ok d) ∧
    (∀ i txin, tx.txins[i]? = some txin →
      txoutmap txin.txhashbuf txin.txoutnum = none →
      (∀ j, j < i → txVerifynin interp tx txoutmap j flags = Except.ok true) →
      txVerifystr interp tx txoutmap flags = Except.error ()) := by
  constructor
  · intro hall
    apply txVerifystrAux_ok interp tx txoutmap flags tx.txins.length 0 (by omega)
    intro j hj
    rcases hg : tx.txins[j]? with _ | txin
    · rw [List.getElem?_eq_none_iff] at hg; omega
    · have hmem : txin ∈ tx.txins := by
        rw [List.mem_iff_getElem?]; exact ⟨j, hg⟩
      rcases hm : txoutmap txin.txhashbuf txin.txoutnum with _ | out
      · exact absurd (hall txin hmem) (by simp [hm])
      · simp [txVerifynin, hg, hm]
  · intro i txin hg hm hbefore
    have hi : i < tx.txins.length := by
      by_contra hcon
      rw [List.getElem?_eq_none_iff.2 (by omega)] at hg
      exact Option.noConfusion hg
    apply txVerifystrAux_error interp tx txoutmap flags tx.txins.length 0 i (by omega) (by omega)
    · simp [txVerifynin, hg, hm]
    · intro j _ hj2
      exact hbefore j hj2

/-- C4 witness: the amended claim instantiated on a one-input transaction;
with the lookup present `verifystr` returns a diagnostic value, with an empty
map it throws. -/
theorem claim_C4_witness :
    (∃ d, txVerifystr (fun _ _ _ _ _ => true)
      ⟨[⟨List.replicate 32 2, 0, []⟩], 1, [⟨1, []⟩], 1, 60, false⟩
      (fun _ _ => some ⟨1, []⟩) 0 = Except.ok d) ∧
    txVerifystr (fun _ _ _ _ _ => true)
      ⟨[⟨List.replicate 32 2, 0, []⟩], 1, [⟨1, []⟩], 1, 60, false⟩
      (fun _ _ => none) 0 = Except.error () :=
  ⟨(claim_C4 (fun _ _ _ _ _ => true) _ _ 0).1 (by intro txin _; rfl),
   (claim_C4 (fun _ _ _ _ _ => true) _ _ 0).2 0 ⟨List.replicate 32 2, 0, []⟩ rfl rfl
     (by omega)⟩

/-! ## Injectivity of the duplicate-detection key

The source keys a JS object by `hexOfHash ++ ':' ++ decimalOfIndex`; distinct
(hash, index) pairs give distinct keys because hex and decimal digits never
contain a colon and both encodings are injective. -/

theorem hexDigit_inj : ∀ a, a < 16 → ∀ b, b < 16 → hexDigit a = hexDigit b → a = b := by
  decide

theorem hexDigit_ne_colon : ∀ a, a < 16 → hexDigit a ≠ ':' := by
  decide

theorem digitChar_ne_colon : ∀ m, m < 10 → Char.ofNat (48 + m) ≠ ':' := by
  decide

theorem digitChar_toNat : ∀ m, m < 10 → (Char.ofNat (48 + m)).toNat = 48 + m := by
  decide

theorem hexChars_no_colon (h : List ℕ) (hb : ∀ b ∈ h, b < 256) : ':' ∉ hexChars h := by
  induction h with
  | nil => simp [hexChars]
  | cons b rest ih =>
    have hblt : b < 256 := hb b (by simp)
    intro hmem
    rw [hexChars] at hmem
    rcases List.mem_append.1 hmem with hm | hm
    · simp only [byteHexChars, List.mem_cons, List.not_mem_nil, or_false] at hm
      rcases hm with h1 | h1
      · exact hexDigit_ne_colon (b / 16) (by omega) h1.symm
      · exact hexDigit_ne_colon (b % 16) (by omega) h1.symm
    · exact ih (fun x hx => hb x (by simp [hx])) hm

theorem decCharsAux_chars : ∀ fuel n c, c ∈ decCharsAux fuel n → ∃ m, m < 10 ∧ c = Char.ofNat (48 + m) := by
  intro fuel
  induction fuel with
  | zero => intro n c hc; simp [decCharsAux] at hc
  | succ fuel ih =>
    intro n c hc
    rw [decCharsAux] at hc
    by_cases hn : n < 10
    · rw [if_pos hn] at hc
      simp only [List.mem_cons, List.not_mem_nil, or_false] at hc
      exact ⟨n, hn, hc⟩
    · rw [if_neg hn] at hc
      rcases List.mem_append.1 hc with hm | hm
      · exact ih (n / 10) c hm
      · simp only [List.mem_cons, List.not_mem_nil, or_false] at hm
        exact ⟨n % 10, by omega, hm⟩

theorem decChars_no_colon (n : ℕ) : ':' ∉ decChars n := by
  intro hmem
  obtain ⟨m, hm, hc⟩ := decCharsAux_chars (n + 1) n ':' hmem
  exact digitChar_ne_colon m hm hc.symm

theorem append_colon_inj : ∀ (a c b d : List Char), ':' ∉ a → ':' ∉ c →
    a ++ ':' :: b = c ++ ':' :: d → a = c ∧ b = d := by
  intro a
  induction a with
  | nil =>
    intro c b d _ hc h
    cases c with
    | nil => simpa using h
    | cons c0 cs =>
      simp only [List.nil_append, List.cons_append, List.cons.injEq] at h
      exact absurd (h.1 ▸ List.mem_cons_self c0 cs) (h.1 ▸ hc)
  | cons a0 as ih =>
    intro c b d ha hc h
    cases c with
    | nil =>
      simp only [List.cons_append, List.nil_append, List.cons.injEq] at h
      exact absurd (h.1 ▸ List.mem_cons_self a0 as) (h.1 ▸ ha)
    | cons c0 cs =>
      simp only [List.cons_append, List.cons.injEq] at h
      obtain ⟨h0, h1⟩ := h
      obtain ⟨hac, hbd⟩ := ih cs b d (fun hm => ha (List.mem_cons_of_mem a0 hm))
        (fun hm => hc (h0 ▸ List.mem_cons_of_mem c0 hm)) h1
      exact ⟨by rw [h0, hac], hbd⟩

theorem hexChars_inj : ∀ h1 h2 : List ℕ, (∀ b ∈ h1, b < 256) → (∀ b ∈ h2, b < 256) →
    hexChars h1 = hexChars h2 → h1 = h2 := by
  intro h1
  induction h1 with
  | nil =>
    intro h2 _ _ heq
    cases h2 with
    | nil => rfl
    | cons b r => simp [hexChars, byteHexChars] at heq
  | cons b1 r1 ih =>
    intro h2 hb1 hb2 heq
    cases h2 with
    | nil => simp [hexChars, byteHexChars] at heq
    | cons b2 r2 =>
      simp only [hexChars, byteHexChars, List.cons_append, List.nil_append,
        List.cons.injEq] at heq
      obtain ⟨hd1, hd2, hrest⟩ := heq
      have hb1' : b1 < 256 := hb1 b1 (by simp)
      have hb2' : b2 < 256 := hb2 b2 (by simp)
      have e1 : b1 / 16 = b2 / 16 := hexDigit_inj _ (by omega) _ (by omega) hd1
      have e2 : b1 % 16 = b2 % 16 := hexDigit_inj _ (by omega) _ (by omega) hd2
      have : b1 = b2 := by omega
      subst this
      rw [ih r2 (fun x hx => hb1 x (by simp [hx])) (fun x hx => hb2 x (by simp [hx])) hrest]

/-- Parse a decimal digit string back to its value. -/
def decVal (cs : List Char) : ℕ :=
  cs.foldl (fun a c => a * 10 + (c.toNat - 48)) 0

theorem decVal_append_digit (xs : List Char) (c : Char) :
    decVal (xs ++ [c]) = 10 * decVal xs + (c.toNat - 48) := by
  rw [decVal, List.foldl_append]
  simp [decVal]
  ring

theorem decCharsAux_val : ∀ fuel n, n < 10 ^ fuel → decVal (decCharsAux fuel n) = n := by
  intro fuel
  induction fuel with
  | zero =>
    intro n hn
    interval_cases n
    rfl
  | succ fuel ih =>
    intro n hn
    rw [decCharsAux]
    by_cases h10 : n < 10
    · rw [if_pos h10]
      show decVal [Char.ofNat (48 + n)] = n
      rw [decVal]
      simp [digitChar_toNat n h10]
    · rw [if_neg h10, decVal_append_digit]
      have : n / 10 < 10 ^ fuel := by
        rw [Nat.div_lt_iff_lt_mul (by norm_num)]
        calc n < 10 ^ (fuel + 1) := hn
        _ = 10 ^ fuel * 10 := by ring
      rw [ih (n / 10) this, digitChar_toNat (n % 10) (by omega)]
      omega

theorem decChars_val (n : ℕ) : decVal (decChars n) = n := by
  apply decCharsAux_val
  calc n < 10 ^ n := Nat.lt_pow_self (by norm_num) n
  _ ≤ 10 ^ (n + 1) := Nat.pow_le_pow_right (by norm_num) (by omega)

theorem decChars_inj (m n : ℕ) (h : decChars m = decChars n) : m = n := by
  rw [← decChars_val m, ← decChars_val n, h]

theorem txInputIdChars_inj (t u : TxinM)
    (ht : ∀ b ∈ t.txhashbuf, b < 256) (hu : ∀ b ∈ u.txhashbuf, b < 256)
    (h : txInputIdChars t = txInputIdChars u) :
    t.txhashbuf = u.txhashbuf ∧ t.txoutnum = u.txoutnum := by
  rw [txInputIdChars, txInputIdChars] at h
  obtain ⟨hhex, hdec⟩ := append_colon_inj _ _ _ _
    (hexChars_no_colon t.txhashbuf ht) (hexChars_no_colon u.txhashbuf hu) h
  exact ⟨hexChars_inj _ _ ht hu hhex, decChars_inj _ _ hdec⟩

/-! ## Canonical-order specification of `checkstr` (for claim C8)

The following definitions restate §4.3 of the spec in its own words: the
first violation in canonical order, with the per-output checks in index
order and the duplicate check reporting the second occurrence of a repeated
(prev-tx-hash, out-index) pair. -/

/-- Violation of output `i`: negative value, value over `MAX_MONEY`, or
running sum through `i` over `MAX_MONEY` — in that order. -/
def txOutViolation (maxMoney : ℤ) (outs : List TxoutM) (i : ℕ) : Option String :=
  match outs[i]? with
  | none => none
  | some o =>
    if o.valuebn < 0 then some ("transaction txout " ++ jsNumStr i ++ " negative")
    else if o.valuebn > maxMoney then
      some ("transaction txout " ++ jsNumStr i ++ " greater than MAX_MONEY")
    else if ((outs.take (i + 1)).map TxoutM.valuebn).sum > maxMoney then
      some ("transaction txout " ++ jsNumStr i ++ " total output greater than MAX_MONEY")
    else none

/-- Violation at input `i`: some earlier input references the same
(prev-tx-hash, out-index) pair. -/
def txDupViolation (ins : List TxinM) (i : ℕ) : Option String :=
  match ins[i]? with
  | none => none
  | some t =>
    if (List.range i).any (fun j =>
        match ins[j]? with
        | some u => u.txhashbuf == t.txhashbuf && u.txoutnum == t.txoutnum
        | none => false) then
      some ("transaction input " ++ jsNumStr i ++ " duplicate input")
    else none

/-- Violation at input `i` of a non-coinbase transaction: a null-input marker. -/
def txNullViolation (ins : List TxinM) (i : ℕ) : Option String :=
  match ins[i]? with
  | none => none
  | some t =>
    if txinHasNullInput t then
      some ("tranasction input " ++ jsNumStr i ++ " has null input")
    else none

/-- The spec's canonical first-violation reading of `checkstr`: empty inputs,
empty outputs, oversized serialization, per-output value checks in index
order, duplicate inputs (reporting the second occurrence), and finally the
coinbase/null-input check; `none` when no check fails. -/
def txCheckstrSpec (maxBlockSize : ℕ) (maxMoney : ℤ) (tx : TxM) : Option String :=
  if tx.txins.length = 0 ∨ tx.txinsvi = 0 then some "transaction txins empty"
  else if tx.txouts.length = 0 ∨ tx.txoutsvi = 0 then some "transaction txouts empty"
  else if tx.size > maxBlockSize then some "transaction over the maximum block size"
  else
    match (List.range tx.txouts.length).findSome? (txOutViolation maxMoney tx.txouts) with
    | some d => some d
    | none =>
      match (List.range tx.txins.length).findSome? (txDupViolation tx.txins) with
      | some d => some d
      | none =>
        if tx.coinbase then
          match tx.txins with
          | [] => none
          | t :: _ =>
            if t.script.length < 2 ∨ t.script.length > 100 then
              some "coinbase trasaction script size invalid"
            else none
        else (List.range tx.txins.length).findSome? (txNullViolation tx.txins)

theorem txCheckOutLoop_eq_general (M : ℤ) :
    ∀ (cur pre : List TxoutM),
      txCheckOutLoop M pre.length ((pre.map TxoutM.valuebn).sum) cur =
        (List.range cur.length).findSome?
          (fun j => txOutViolation M (pre ++ cur) (pre.length + j)) := by
  intro cur
  induction cur with
  | nil => intro pre; simp [txCheckOutLoop]
  | cons o rest ih =>
    intro pre
    have hget : (pre ++ o :: rest)[pre.length + 0]? = some o := by
      rw [add_zero, List.getElem?_append_right le_rfl]
      simp
    have htake : (pre ++ o :: rest).take (pre.length + 0 + 1) = pre ++ [o] := by
      rw [List.take_append_eq_append_take]
      simp
    rw [txCheckOutLoop, List.length_cons, List.range_succ_eq_map, List.findSome?_cons]
    rw [txOutViolation, hget, htake]
    simp only [List.map_append, List.sum_append, List.map_cons, List.map_nil,
      List.sum_cons, List.sum_nil, add_zero]
    split_ifs with h1 h2 h3
    · rfl
    · rfl
    · rfl
    · rw [List.findSome?_map]
      have ihx := ih (pre ++ [o])
      simp only [List.length_append, List.map_append, List.sum_append, List.map_cons,
        List.map_nil, List.sum_cons, List.sum_nil, add_zero, List.length_cons,
        List.length_nil, List.append_assoc, List.cons_append, List.nil_append] at ihx
      rw [show pre.length + 1 = pre.length + 1 from rfl] at ihx
      rw [ihx]
      congr 1
      funext j
      simp only [Function.comp_apply]
      congr 1
      omega

theorem txCheckDupLoop_eq_general (ins : List TxinM)
    (hbytes : ∀ t ∈ ins, ∀ b ∈ t.txhashbuf, b < 256) :
    ∀ (cur pre : List TxinM) (seen : List (List Char)), pre ++ cur = ins →
      (∀ idc, idc ∈ seen ↔ ∃ t ∈ pre, idc = txInputIdChars t) →
      txCheckDupLoop pre.length seen cur =
        (List.range cur.length).findSome? (fun j => txDupViolation ins (pre.length + j)) := by
  intro cur
  induction cur with
  | nil => intro pre seen _ _; simp [txCheckDupLoop]
  | cons t rest ih =>
    intro pre seen hpc hseen
    have hget : ins[pre.length]? = some t := by
      rw [← hpc, List.getElem?_append_right le_rfl]; simp
    have htmem : t ∈ ins := by rw [List.mem_iff_getElem?]; exact ⟨pre.length, hget⟩
    have hcond : (txInputIdChars t ∈ seen) ↔
        ((List.range pre.length).any (fun j =>
          match ins[j]? with
          | some u => u.txhashbuf == t.txhashbuf && u.txoutnum == t.txoutnum
          | none => false) = true) := by
      constructor
      · intro hm
        obtain ⟨u, hu, hid⟩ := (hseen _).1 hm
        obtain ⟨j, hju⟩ := List.mem_iff_getElem?.1 hu
        have hjlt : j < pre.length := by
          by_contra hcon
          rw [List.getElem?_eq_none_iff.2 (by omega)] at hju
          exact Option.noConfusion hju
        have hins : ins[j]? = some u := by
          rw [← hpc, List.getElem?_append_left hjlt]; exact hju
        have humem : u ∈ ins := by rw [List.mem_iff_getElem?]; exact ⟨j, hins⟩
        obtain ⟨hh, hn⟩ := txInputIdChars_inj t u (hbytes t htmem) (hbytes u humem) hid
        rw [List.any_eq_true]
        refine ⟨j, List.mem_range.2 hjlt, ?_⟩
        rw [hins]
        simp [hh, hn]
      · intro hany
        rw [List.any_eq_true] at hany
        obtain ⟨j, hjr, hj⟩ := hany
        have hjlt : j < pre.length := List.mem_range.1 hjr
        have hpj : ins[j]? = pre[j]? := by
          rw [← hpc, List.getElem?_append_left hjlt]
        rcases hg : pre[j]? with _ | u
        · rw [hpj, hg] at hj; simp at hj
        · rw [hpj, hg] at hj
          simp only [Bool.and_eq_true, beq_iff_eq] at hj
          apply (hseen _).2
          refine ⟨u, ?_, ?_⟩
          · rw [List.mem_iff_getElem?]; exact ⟨j, hg⟩
          · rw [txInputIdChars, txInputIdChars, hj.1, hj.2]
    rw [txCheckDupLoop, List.length_cons, List.range_succ_eq_map, List.findSome?_cons]
    by_cases hc : txInputIdChars t ∈ seen
    · rw [if_pos hc]
      have hf0 : txDupViolation ins (pre.length + 0) =
          some ("transaction input " ++ jsNumStr pre.length ++ " duplicate input") := by
        simp only [txDupViolation, hget, add_zero]
        rw [if_pos (hcond.1 hc)]
      rw [hf0]
    · rw [if_neg hc]
      have hf0 : txDupViolation ins (pre.length + 0) = none := by
        simp only [txDupViolation, hget, add_zero]
        rw [if_neg (by intro hcontra; exact hc (hcond.2 hcontra))]
      rw [hf0, List.findSome?_map]
      have ihx := ih (pre ++ [t]) (txInputIdChars t :: seen)
        (by rw [← hpc]; simp)
        (by
          intro idc
          simp only [List.mem_cons, List.mem_append, List.mem_singleton,
            List.not_mem_nil, or_false]
          constructor
          · rintro (rfl | hm)
            · exact ⟨t, Or.inr rfl, rfl⟩
            · obtain ⟨u, hu, hid⟩ := (hseen idc).1 hm
              exact ⟨u, Or.inl hu, hid⟩
          · rintro ⟨u, hu | rfl, hid⟩
            · exact Or.inr ((hseen idc).2 ⟨u, hu, hid⟩)
            · exact Or.inl hid)
      simp only [List.length_append, List.length_cons, List.length_nil, zero_add] at ihx
      rw [ihx]
      congr 1
      funext j
      simp only [Function.comp_apply]
      congr 1
      omega

theorem txCheckNullLoop_eq_general (ins : List TxinM) :
    ∀ (cur pre : List TxinM), pre ++ cur = ins →
      txCheckNullLoop pre.length cur =
        (List.range cur.length).findSome? (fun j => txNullViolation ins (pre.length + j)) := by
  intro cur
  induction cur with
  | nil => intro pre _; simp [txCheckNullLoop]
  | cons t rest ih =>
    intro pre hpc
    have hget : ins[pre.length]? = some t := by
      rw [← hpc, List.getElem?_append_right le_rfl]; simp
    rw [txCheckNullLoop, List.length_cons, List.range_succ_eq_map, List.findSome?_cons]
    by_cases hn : txinHasNullInput t
    · rw [if_pos hn]
      have hf0 : txNullViolation ins (pre.length + 0) =
          some ("tranasction input " ++ jsNumStr pre.length ++ " has null input") := by
        simp only [txNullViolation, add_zero, hget]
        rw [if_pos hn]
      rw [hf0]
    · rw [if_neg hn]
      have hf0 : txNullViolation ins (pre.length + 0) = none := by
        simp only [txNullViolation, add_zero, hget]
        rw [if_neg hn]
      rw [hf0, List.findSome?_map]
      have ihx := ih (pre ++ [t]) (by rw [← hpc]; simp)
      simp only [List.length_append, List.length_cons, List.length_nil, zero_add] at ihx
      rw [ihx]
      congr 1
      funext j
      simp only [Function.comp_apply]
      congr 1
      omega

/-- C8: `checkstr` returns the diagnostic of the first violation in the
canonical order — empty inputs, empty outputs, oversized serialization,
per-output value checks in index order (negative, over MAX_MONEY, running sum
over MAX_MONEY), duplicate inputs reporting the second occurrence, and the
coinbase/null-input check — and `none` when no check fails.  Stated as
equality with the canonical-order specification `txCheckstrSpec`.  The
byte-bound hypothesis makes the hex duplicate keys injective (JS buffers
always satisfy it). -/
theorem claim_C8 (maxBlockSize : ℕ) (maxMoney : ℤ) (tx : TxM)
    (hbytes : ∀ t ∈ tx.txins, ∀ b ∈ t.txhashbuf, b < 256) :
    txCheckstr maxBlockSize maxMoney tx = txCheckstrSpec maxBlockSize maxMoney tx := by
  rw [txCheckstr, txCheckstrSpec]
  have hout := txCheckOutLoop_eq_general maxMoney tx.txouts []
  simp only [List.length_nil, List.map_nil, List.sum_nil, List.nil_append, zero_add] at hout
  have hdup := txCheckDupLoop_eq_general tx.txins hbytes tx.txins [] [] rfl (by simp)
  simp only [List.length_nil, zero_add] at hdup
  have hnull := txCheckNullLoop_eq_general tx.txins tx.txins [] rfl
  simp only [List.length_nil, zero_add] at hnull
  rw [hout, hdup, hnull]

/-- The transaction of scenario S5: inputs 0 and 1 reference the same
(prev-tx-hash, out-index). -/
def dupInputTx : TxM :=
  ⟨[⟨List.replicate 32 171, 0, [0, 0]⟩, ⟨List.replicate 32 171, 0, [0, 0]⟩],
   2, [⟨5, []⟩], 1, 100, false⟩

/-- C8 witness: the refinement instantiated on the duplicate-input
transaction of scenario S5, which indeed reports the second occurrence. -/
theorem claim_C8_witness :
    txCheckstr 1000000 2100000000000000 dupInputTx =
      txCheckstrSpec 1000000 2100000000000000 dupInputTx ∧
    txCheckstr 1000000 2100000000000000 dupInputTx =
      some "transaction input 1 duplicate input" :=
  ⟨claim_C8 1000000 2100000000000000 dupInputTx (by decide), by rfl⟩

/-! ## ECDSA engine (`lib/ecdsa.js`)

The curve-point collaborator `point.js` is not among the sources.  For the
group-law operations the engine uses, the spec specifies (§3, C2): group
operations, the invariant `n·Point = infinity` for `n = N`, and the standard
base point `G`.  Every point the engine manipulates lies in the cyclic
subgroup generated by `G`, which has prime order `N`, so a point is modelled
by its discrete logarithm: `k·G ↦ k mod N`, with the point at infinity `0`.
The affine x-coordinate is abstracted to `pointX p = min p (N − p)`, which
has the properties the algorithms rely on: it is invariant under negation
and below `N`.  The big-number collaborator `bn.js` is modelled by `ℕ` with
explicit `% N`, and `BN.prototype.invm` by the Fermat inverse (`N` is
prime).  The HMAC of `hash.js` is an abstract parameter. -/

/-- Modelled from the spec: `G.mul(k)` — the point `k·G`, in the dlog model. -/
def gMul (k : ℕ) : ℕ := k % secpN

/-- Modelled from the spec: scalar multiplication `P.mul(k)` of a point. -/
def pMul (p k : ℕ) : ℕ := p * k % secpN

/-- Modelled from the spec: point addition `P.add(Q)`. -/
def pAdd (p q : ℕ) : ℕ := (p + q) % secpN

/-- Modelled from the spec: `G.mulAdd(u, Q, v) = u·G + v·Q`. -/
def gMulAdd (u q v : ℕ) : ℕ := (u + v * q) % secpN

/-- Modelled from the spec: the affine x-coordinate `P.getX()`, abstracted to
a function on the dlog model that identifies a point with its negation. -/
def pointX (p : ℕ) : ℕ := min p (secpN - p)

/-- Modelled from the spec: `BN.prototype.invm(N)` — the modular inverse
modulo the prime `N`, realised as the Fermat inverse `a^(N-2) mod N`. -/
def invmN (a : ℕ) : ℕ := powMod secpN a (secpN - 2)

/-- Modelled from the spec: `Pubkey.prototype.validate` in the dlog model —
the only failing case expressible there is the point at infinity (the
`(0,0)` and curve-equation checks concern affine coordinates, which every
subgroup point satisfies). -/
def pubkeyGValidate (q : ℕ) : Bool := q % secpN != 0

/-- The retry loop of `deterministicK`: while the counter is below `badrs`
or `T` is out of range, re-key and re-derive `V` twice, then re-read `T`.
Fuel bounds the iterations (the source's loop has no termination bound). -/
def detKLoop (hmac : List ℕ → List ℕ → List ℕ) :
    ℕ → ℕ → ℕ → List ℕ → List ℕ → ℕ → Option ℕ
  | 0, _, _, _, _, _ => none
  | fuel + 1, i, badrs, k, v, T =>
    if i < badrs ∨ ¬(0 < T ∧ T < secpN) then
      let k' := hmac (v ++ [0]) k
      let v1 := hmac v k'
      let v2 := hmac v1 k'
      detKLoop hmac fuel (i + 1) badrs k' v2 (beNat v2)
    else some T

/-- Source `ECDSA.prototype.deterministicK`, generic over the external
`Hash.sha256hmac(data, key)` collaborator: after the 0x00 keying step `V` is
updated once; after the 0x01 keying step `V` is updated twice (the source's
double application); then the retry loop runs. -/
def deterministicK (hmac : List ℕ → List ℕ → List ℕ) (d : ℕ) (h : List ℕ)
    (badrs fuel : ℕ) : Option ℕ :=
  let v0 := List.replicate 32 1
  let k0 := List.replicate 32 0
  let x := beBytes 32 d
  let k1 := hmac (v0 ++ 0 :: (x ++ h)) k0
  let v1 := hmac v0 k1
  let k2 := hmac (v1 ++ 1 :: (x ++ h)) k1
  let v2 := hmac v1 k2
  let v3 := hmac v2 k2
  detKLoop hmac fuel 0 badrs k2 v3 (beNat v3)

/-- The do/while retry loop of `ECDSA.prototype.sign`: each attempt draws
`k = deterministicK(badrs)`, computes `Q = k·G`, `r = Q.x mod N`,
`s = k⁻¹(e + d·r) mod N`, and retries with incremented `badrs` while
`r = 0` or `s = 0`. -/
def signLoop (hmac : List ℕ → List ℕ → List ℕ) (d : ℕ) (h : List ℕ)
    (e kfuel : ℕ) : ℕ → ℕ → Option (ℕ × ℕ)
  | 0, _ => none
  | fuel + 1, badrs =>
    match deterministicK hmac d h badrs kfuel with
    | none => none
    | some k =>
      let q := gMul k
      let r := pointX q % secpN
      let s := invmN k * (e + d * r) % secpN
      if r = 0 ∨ s = 0 then signLoop hmac d h e kfuel fuel (badrs + 1)
      else some (r, s)

/-- Source `ECDSA.prototype.sign` (the static `ECDSA.sign` path: no preset
`k`, big-endian digest): a digest that is not 32 bytes throws (`none`), the
retry loop produces `(r, s)`, and `s` is low-s normalized against the
literal bound. -/
def ecdsaSign (hmac : List ℕ → List ℕ → List ℕ) (d : ℕ) (h : List ℕ)
    (fuel kfuel : ℕ) : Option (ℕ × ℕ) :=
  if h.length ≠ 32 then none
  else
    (signLoop hmac d h (beNat h) kfuel fuel 0).map fun rs =>
      (rs.1, if lowSBound < rs.2 then secpN - rs.2 else rs.2)

/-- Source `ECDSA.prototype.verifystr` (big-endian digest): returns `none`
for a valid signature and a diagnostic string otherwise. -/
def ecdsaVerifystr (h : List ℕ) (r s q : ℕ) : Option String :=
  if h.length ≠ 32 then some "hashbuf must be a 32 byte buffer"
  else if ¬ pubkeyGValidate q then some "Invalid pubkey"
  else if ¬(0 < r ∧ r < secpN ∧ 0 < s ∧ s < secpN) then some "r and s not in range"
  else
    let e := beNat h
    let sinv := invmN s
    let u1 := sinv * e % secpN
    let u2 := sinv * r % secpN
    let p := gMulAdd u1 q u2
    if p = 0 then some "p is infinity"
    else if ¬(pointX p % secpN = r) then some "Invalid signature"
    else none

/-- Source `ECDSA.verify` / `ECDSA.prototype.verify`: the `verified` flag is
true exactly when `verifystr` returns no diagnostic. -/
def ecdsaVerify (h : List ℕ) (r s q : ℕ) : Bool :=
  (ecdsaVerifystr h r s q).isNone

/-- The retry loop as the claim words it: while `T ≥ N`, `T = 0`, or the
retry budget is not exhausted, re-key, apply the double `V` update, re-read
`T`, and decrement the budget. -/
def detKLoopSpec (hmac : List ℕ → List ℕ → List ℕ) :
    ℕ → ℕ → List ℕ → List ℕ → ℕ → Option ℕ
  | 0, _, _, _, _ => none
  | fuel + 1, budget, k, v, T =>
    if secpN ≤ T ∨ T = 0 ∨ 0 < budget then
      let k' := hmac (v ++ [0]) k
      let v1 := hmac v k'
      let v2 := hmac v1 k'
      detKLoopSpec hmac fuel (budget - 1) k' v2 (beNat v2)
    else some T

/-- Claim C5's reading of `deterministicK`: after `K ← HMAC(K, V‖0x01‖d‖h)`,
`V ← HMAC(K, V)` is applied twice in sequence, and the loop re-derives `T`
while `T ≥ N`, `T = 0`, or the `badrs` budget is not exhausted, applying the
double `V` update each iteration. -/
def deterministicKSpec (hmac : List ℕ → List ℕ → List ℕ) (d : ℕ) (h : List ℕ)
    (badrs fuel : ℕ) : Option ℕ :=
  let v0 := List.replicate 32 1
  let k0 := List.replicate 32 0
  let x := beBytes 32 d
  let k1 := hmac (v0 ++ 0 :: (x ++ h)) k0
  let v1 := hmac v0 k1
  let k2 := hmac (v1 ++ 1 :: (x ++ h)) k1
  let v2 := hmac v1 k2
  let v3 := hmac v2 k2
  detKLoopSpec hmac fuel badrs k2 v3 (beNat v3)

theorem detKLoop_eq_spec (hmac : List ℕ → List ℕ → List ℕ) :
    ∀ fuel i badrs k v T,
      detKLoop hmac fuel i badrs k v T = detKLoopSpec hmac fuel (badrs - i) k v T := by
  intro fuel
  induction fuel with
  | zero => intro i badrs k v T; rfl
  | succ fuel ih =>
    intro i badrs k v T
    rw [detKLoop, detKLoopSpec]
    have hcond : (i < badrs ∨ ¬(0 < T ∧ T < secpN)) ↔
        (secpN ≤ T ∨ T = 0 ∨ 0 < badrs - i) := by
      constructor
      · rintro (hlt | hbad)
        · exact Or.inr (Or.inr (by omega))
        · rcases Nat.lt_or_ge T secpN with hT | hT
          · exact Or.inr (Or.inl (by omega))
          · exact Or.inl hT
      · rintro (hge | hz | hbudget)
        · exact Or.inr (by omega)
        · exact Or.inr (by omega)
        · exact Or.inl (by omega)
    by_cases hc : i < badrs ∨ ¬(0 < T ∧ T < secpN)
    · rw [if_pos hc, if_pos (hcond.1 hc)]
      rw [ih (i + 1) badrs]
      have : badrs - (i + 1) = badrs - i - 1 := by omega
      rw [this]
    · rw [if_neg hc, if_neg (fun hx => hc (hcond.2 hx))]

/-- C5: `deterministicK` equals the claim's step-by-step formulation: the
0x01 keying step is followed by the double `V` update, and the retry loop
re-derives `T` while `T ≥ N`, `T = 0`, or the `badrs` budget is positive,
applying the double `V` update on each iteration and decrementing the
budget. -/
theorem claim_C5 (hmac : List ℕ → List ℕ → List ℕ) (d : ℕ) (h : List ℕ)
    (badrs fuel : ℕ) :
    deterministicK hmac d h badrs fuel = deterministicKSpec hmac d h badrs fuel := by
  rw [deterministicK, deterministicKSpec]
  rw [detKLoop_eq_spec, Nat.sub_zero]

theorem detKLoop_range (hmac : List ℕ → List ℕ → List ℕ) :
    ∀ fuel i badrs k v T T', detKLoop hmac fuel i badrs k v T = some T' →
      0 < T' ∧ T' < secpN := by
  intro fuel
  induction fuel with
  | zero => intro i badrs k v T T' hx; exact Option.noConfusion hx
  | succ fuel ih =>
    intro i badrs k v T T' hx
    rw [detKLoop] at hx
    by_cases hc : i < badrs ∨ ¬(0 < T ∧ T < secpN)
    · rw [if_pos hc] at hx
      exact ih _ _ _ _ _ _ hx
    · rw [if_neg hc] at hx
      push_neg at hc
      obtain ⟨_, hT⟩ := hc
      cases hx
      exact hT

theorem deterministicK_range (hmac : List ℕ → List ℕ → List ℕ) (d : ℕ)
    (h : List ℕ) (badrs fuel k : ℕ)
    (hk : deterministicK hmac d h badrs fuel = some k) : 0 < k ∧ k < secpN := by
  rw [deterministicK] at hk
  exact detKLoop_range hmac fuel 0 badrs _ _ _ k hk

theorem signLoop_sound (hmac : List ℕ → List ℕ → List ℕ) (d : ℕ) (h : List ℕ)
    (e kfuel : ℕ) :
    ∀ fuel badrs r0 s0, signLoop hmac d h e kfuel fuel badrs = some (r0, s0) →
      ∃ b k, deterministicK hmac d h b kfuel = some k ∧
        r0 = pointX (gMul k) % secpN ∧
        s0 = invmN k * (e + d * r0) % secpN ∧ r0 ≠ 0 ∧ s0 ≠ 0 := by
  intro fuel
  induction fuel with
  | zero => intro badrs r0 s0 hx; exact Option.noConfusion hx
  | succ fuel ih =>
    intro badrs r0 s0 hx
    rw [signLoop] at hx
    rcases hk : deterministicK hmac d h badrs kfuel with _ | k
    · rw [hk] at hx; exact Option.noConfusion hx
    · rw [hk] at hx
      dsimp only at hx
      by_cases hc : pointX (gMul k) % secpN = 0 ∨
          invmN k * (e + d * (pointX (gMul k) % secpN)) % secpN = 0
      · rw [if_pos hc] at hx
        exact ih _ _ _ hx
      · rw [if_neg hc] at hx
        push_neg at hc
        obtain ⟨hr, hs⟩ := hc
        cases hx
        exact ⟨badrs, k, hk, rfl, rfl, hr, hs⟩

/-- C6: every signature produced by `sign` has `s ≤ ⌊N/2⌋`, and the final `s`
is exactly the loop's `s₀` flipped to `N − s₀` whenever `s₀` exceeds the
literal low-s bound. -/
theorem claim_C6 (hmac : List ℕ → List ℕ → List ℕ) (d : ℕ) (h : List ℕ)
    (fuel kfuel r s : ℕ)
    (hs : ecdsaSign hmac d h fuel kfuel = some (r, s)) :
    s ≤ secpN / 2 ∧
    ∃ s0, (signLoop hmac d h (beNat h) kfuel fuel 0).map Prod.snd = some s0 ∧
      s = (if lowSBound < s0 then secpN - s0 else s0) := by
  rw [ecdsaSign] at hs
  by_cases hlen : h.length ≠ 32
  · rw [if_pos hlen] at hs; exact Option.noConfusion hs
  · rw [if_neg hlen] at hs
    rcases hloop : signLoop hmac d h (beNat h) kfuel fuel 0 with _ | ⟨r0, s0⟩
    · rw [hloop] at hs; exact Option.noConfusion hs
    · rw [hloop] at hs
      simp only [Option.map_some'] at hs
      obtain ⟨rfl, rfl⟩ := Prod.ext_iff.1 (Option.some.inj hs)
      obtain ⟨b, k, hk, hr0, hs0, hrne, hsne⟩ :=
        signLoop_sound hmac d h (beNat h) kfuel fuel 0 r0 s0 hloop
      have hs0lt : s0 < secpN := by
        rw [hs0]; exact Nat.mod_lt _ (by norm_num [secpN])
      have hNb : secpN = 2 * lowSBound + 1 := by norm_num [secpN, lowSBound]
      constructor
      · by_cases hbig : lowSBound < s0
        · rw [if_pos hbig]
          omega
        · rw [if_neg hbig]
          omega
      · exact ⟨s0, rfl, rfl⟩

/-- A constant HMAC oracle used to evaluate the engine on concrete inputs:
every call returns the 32-byte big-endian encoding of 1. -/
def constHmac : List ℕ → List ℕ → List ℕ := fun _ _ => List.replicate 31 0 ++ [1]

/-- The all-zero 32-byte digest. -/
def zeroDigest : List ℕ := List.replicate 32 0

example : ecdsaSign constHmac 1 zeroDigest 2 2 = some (1, 1) := by rfl

/-- C6 witness: the theorem instantiated on a concrete signing run. -/
theorem claim_C6_witness :
    (1 : ℕ) ≤ secpN / 2 ∧
    ∃ s0, (signLoop constHmac 1 zeroDigest (beNat zeroDigest) 2 2 0).map Prod.snd = some s0 ∧
      (1 : ℕ) = (if lowSBound < s0 then secpN - s0 else s0) :=
  claim_C6 constHmac 1 zeroDigest 2 2 1 1 (by rfl)

instance secpN_neZero : NeZero secpN := ⟨by norm_num [secpN]⟩

theorem natCast_invmN (a : ℕ) :
    ((invmN a : ℕ) : ZMod secpN) = (a : ZMod secpN) ^ (secpN - 2) := by
  rw [invmN, powMod_eq secpN a (secpN - 2) (by norm_num [secpN]), ZMod.natCast_mod,
    Nat.cast_pow]

theorem invmN_spec (a : ℕ) (ha : (a : ZMod secpN) ≠ 0) :
    ((invmN a : ℕ) : ZMod secpN) = (a : ZMod secpN)⁻¹ := by
  rw [natCast_invmN]
  apply eq_inv_of_mul_eq_one_left
  rw [← pow_succ]
  have hexp : secpN - 2 + 1 = secpN - 1 := by norm_num [secpN]
  rw [hexp]
  exact ZMod.pow_card_sub_one_eq_one ha

theorem natCast_secpN_ne_zero (x : ℕ) (h0 : x ≠ 0) (hlt : x < secpN) :
    (x : ZMod secpN) ≠ 0 := by
  rw [Ne, ZMod.natCast_zmod_eq_zero_iff_dvd]
  intro hdvd
  rcases Nat.eq_zero_of_dvd_of_lt hdvd hlt with h
  exact h0 h

theorem natCast_secpN_inj (x y : ℕ) (hx : x < secpN) (hy : y < secpN)
    (h : (x : ZMod secpN) = (y : ZMod secpN)) : x = y := by
  have := congrArg ZMod.val h
  rwa [ZMod.val_cast_of_lt hx, ZMod.val_cast_of_lt hy] at this

/-- C1: signing a 32-byte digest with a private scalar `d ∈ (0, N)` and
verifying the resulting signature against the public key `d·G` succeeds.
The theorem is conditional on the signing loop producing a signature (the
source's do/while has no termination guarantee, modelled by fuel), and holds
for every HMAC oracle. -/
theorem claim_C1 (hmac : List ℕ → List ℕ → List ℕ) (d : ℕ) (h : List ℕ)
    (fuel kfuel r s : ℕ) (hd0 : 0 < d) (hdN : d < secpN)
    (hsig : ecdsaSign hmac d h fuel kfuel = some (r, s)) :
    ecdsaVerify h r s (gMul d) = true := by
  rw [ecdsaSign] at hsig
  by_cases hlen : h.length ≠ 32
  · rw [if_pos hlen] at hsig; exact Option.noConfusion hsig
  rw [if_neg hlen] at hsig
  rcases hloop : signLoop hmac d h (beNat h) kfuel fuel 0 with _ | ⟨r0, s0⟩
  · rw [hloop] at hsig; exact Option.noConfusion hsig
  rw [hloop] at hsig
  simp only [Option.map_some'] at hsig
  obtain ⟨rfl, rfl⟩ := Prod.ext_iff.1 (Option.some.inj hsig)
  obtain ⟨b, k, hk, hr0, hs0, hrne, hsne⟩ :=
    signLoop_sound hmac d h (beNat h) kfuel fuel 0 r0 s0 hloop
  obtain ⟨hk0, hkN⟩ := deterministicK_range hmac d h b kfuel k hk
  have hNpos : 0 < secpN := by norm_num [secpN]
  have hgk : gMul k = k := Nat.mod_eq_of_lt hkN
  have hgd : gMul d = d := Nat.mod_eq_of_lt hdN
  -- the r component is the abstract x-coordinate of k·G
  have hxk : pointX k < secpN := lt_of_le_of_lt (min_le_left _ _) hkN
  have hr0x : r0 = pointX k := by rw [hr0, hgk, Nat.mod_eq_of_lt hxk]
  have hr0N : r0 < secpN := hr0x ▸ hxk
  have hs0N : s0 < secpN := by rw [hs0]; exact Nat.mod_lt _ hNpos
  -- the final s and its bounds
  set e := beNat h with he
  set s := (if lowSBound < s0 then secpN - s0 else s0) with hsdef
  have hsN : s < secpN := by
    rw [hsdef]; split_ifs <;> omega
  have hspos : 0 < s := by
    rw [hsdef]; split_ifs <;> omega
  -- casts into the prime field
  have hkF : (k : ZMod secpN) ≠ 0 := natCast_secpN_ne_zero k (by omega) hkN
  have hs0F : (s0 : ZMod secpN) ≠ 0 := natCast_secpN_ne_zero s0 hsne hs0N
  have hsF : (s : ZMod secpN) ≠ 0 := natCast_secpN_ne_zero s (by omega) hsN
  have hAkey : ((e : ZMod secpN) + d * r0) = k * s0 := by
    have hc : (s0 : ZMod secpN) = (k : ZMod secpN)⁻¹ * ((e : ZMod secpN) + d * r0) := by
      calc (s0 : ZMod secpN)
          = ((invmN k * (e + d * r0) % secpN : ℕ) : ZMod secpN) := by rw [← hs0]
        _ = ((invmN k * (e + d * r0) : ℕ) : ZMod secpN) := ZMod.natCast_mod _ _
        _ = ((invmN k : ℕ) : ZMod secpN) * ((e : ZMod secpN) + d * r0) := by push_cast; ring
        _ = (k : ZMod secpN)⁻¹ * ((e : ZMod secpN) + d * r0) := by rw [invmN_spec k hkF]
    rw [hc, ← mul_assoc, mul_inv_cancel₀ hkF, one_mul]
  -- the recomputed point
  set P := gMulAdd (invmN s * e % secpN) (gMul d) (invmN s * r0 % secpN) with hPdef
  have hPN : P < secpN := by
    rw [hPdef, gMulAdd]; exact Nat.mod_lt _ hNpos
  have hPcast : (P : ZMod secpN) = (s : ZMod secpN)⁻¹ * ((e : ZMod secpN) + d * r0) := by
    calc (P : ZMod secpN)
        = ((invmN s * e % secpN + invmN s * r0 % secpN * gMul d) % secpN : ℕ) := by
          rw [hPdef, gMulAdd]
      _ = ((invmN s * e % secpN + invmN s * r0 % secpN * gMul d : ℕ) : ZMod secpN) :=
          ZMod.natCast_mod _ _
      _ = ((invmN s * e % secpN : ℕ) : ZMod secpN) +
            ((invmN s * r0 % secpN : ℕ) : ZMod secpN) * ((gMul d : ℕ) : ZMod secpN) := by
          push_cast; ring
      _ = ((invmN s : ℕ) : ZMod secpN) * e +
            ((invmN s : ℕ) : ZMod secpN) * r0 * d := by
          rw [ZMod.natCast_mod, ZMod.natCast_mod, hgd]; push_cast; ring
      _ = (s : ZMod secpN)⁻¹ * ((e : ZMod secpN) + d * r0) := by
          rw [invmN_spec s hsF]; ring
  -- P is k·G or its negation
  have hPk : P = k ∨ P = secpN - k := by
    by_cases hbig : lowSBound < s0
    · right
      have hscast : (s : ZMod secpN) = -(s0 : ZMod secpN) := by
        rw [hsdef, if_pos hbig, Nat.cast_sub (le_of_lt hs0N), ZMod.natCast_self, zero_sub]
      have : (P : ZMod secpN) = ((secpN - k : ℕ) : ZMod secpN) := by
        rw [hPcast, hAkey, hscast, Nat.cast_sub (le_of_lt hkN), ZMod.natCast_self, zero_sub]
        rw [inv_neg]
        field_simp
      exact natCast_secpN_inj P (secpN - k) hPN (by omega) this
    · left
      have hscast : (s : ZMod secpN) = (s0 : ZMod secpN) := by
        rw [hsdef, if_neg hbig]
      have : (P : ZMod secpN) = (k : ZMod secpN) := by
        rw [hPcast, hAkey, hscast]
        field_simp
      exact natCast_secpN_inj P k hPN hkN this
  -- x-coordinates agree
  have hPx : pointX P % secpN = r0 := by
    rcases hPk with hPk' | hPk'
    · rw [hPk', Nat.mod_eq_of_lt hxk]
      exact hr0x.symm
    · have hxid : pointX (secpN - k) = pointX k := by
        rw [pointX, pointX, Nat.sub_sub_self (le_of_lt hkN), min_comm]
      rw [hPk', hxid, Nat.mod_eq_of_lt hxk]
      exact hr0x.symm
  have hPne : P ≠ 0 := by
    rcases hPk with hPk' | hPk' <;> omega
  -- assemble the verifier run
  rw [ecdsaVerify, ecdsaVerifystr, if_neg hlen]
  have hval : ¬¬pubkeyGValidate (gMul d) = true := by
    rw [pubkeyGValidate, hgd, Nat.mod_eq_of_lt hdN]
    simp
    omega
  rw [if_neg hval]
  rw [if_neg (not_not.2 ⟨by omega, hr0N, hspos, hsN⟩)]
  dsimp only
  rw [← he, ← hPdef, if_neg hPne, if_neg (not_not.2 hPx)]
  rfl

/-- C1 witness: a complete sign-then-verify round trip on concrete inputs
(`d = 1`, all-zero digest, constant HMAC oracle). -/
theorem claim_C1_witness : ecdsaVerify zeroDigest 1 1 (gMul 1) = true :=
  claim_C1 constHmac 1 zeroDigest 2 2 1 1 (by norm_num) (by norm_num [secpN]) (by rfl)

/-- A signature as `sig.js` holds it: `(r, s)`, the optional recovery byte,
and the optional compressed flag. -/
structure SigM where
  r : ℕ
  s : ℕ
  recovery : Option ℕ
  compressed : Option Bool
deriving DecidableEq, Repr

/-- A public key in the dlog point model, with its compressed flag. -/
structure PubkeyG where
  point : ℕ
  compressed : Option Bool
deriving DecidableEq, Repr

/-- Modelled from the spec: `Point.fromX(odd, x)` in the dlog model — the two
points with abstract x-coordinate `x` are `{x, N − x}` (defined for
`0 < x ≤ (N−1)/2`, the range of `pointX` on nonzero points); the parity bit
selects the member (a fixed convention of the model).  Any other `x` has no
lift. -/
def gPointFromX (odd : Bool) (x : ℕ) : Except String ℕ :=
  if 0 < x ∧ x ≤ (secpN - 1) / 2 then Except.ok (if odd then secpN - x else x)
  else Except.error "invalid x"

/-- Source `ECDSA.prototype.sig2pubkey`, the point computation: checks the
recovery value, lifts `R` from `x = r` (or `r + N`), checks `N·R` is the
point at infinity, computes `Q = r⁻¹(s·R − e·G)` (subtracting via the
negation mod `N`), and rejects the point at infinity (the `validate()`
call on the wrapped key). -/
def sig2pubkeyPoint (sig : SigM) (h : List ℕ) : Except String ℕ :=
  match sig.recovery with
  | none => Except.error "i must be equal to 0, 1, 2, or 3"
  | some rec' =>
    if rec' < 4 then
      let e := beNat h
      let x := if rec' / 2 = 0 then sig.r else sig.r + secpN
      match gPointFromX (rec' % 2 == 1) x with
      | Except.error msg => Except.error msg
      | Except.ok bigR =>
        if pMul bigR secpN ≠ 0 then Except.error "nR is not a valid curve point"
        else
          let eNeg := (secpN - e % secpN) % secpN
          let rInv := invmN sig.r
          let q := pMul (pAdd (pMul bigR sig.s) (gMul eNeg)) rInv
          if q = 0 then Except.error "point: Point cannot be equal to Infinity"
          else Except.ok q
    else Except.error "i must be equal to 0, 1, 2, or 3"

/-- Source `ECDSA.prototype.sig2pubkey`: the recovered point wrapped in a
`Pubkey` carrying the signature's compressed flag. -/
def sig2pubkey (sig : SigM) (h : List ℕ) : Except String PubkeyG :=
  (sig2pubkeyPoint sig h).map fun q => ⟨q, sig.compressed⟩

/-- Recovery value `i` recovers the expected key: `sig2pubkey` succeeds with
`recovery = i` and returns the expected point. -/
def recoveryMatches (expected : PubkeyG) (sig : SigM) (h : List ℕ) (i : ℕ) : Prop :=
  ∃ q, sig2pubkey { sig with recovery := some i } h = Except.ok q ∧
    q.point = expected.point

/-- The loop of `calcrecovery` over the candidate recovery values: try
`sig2pubkey`; an exception continues; on the first point match, record the
recovery value and the expected key's compressed flag (defaulting to `true`)
on the signature and return it; an exhausted list throws. -/
def calcrecTry (expected : PubkeyG) (sig : SigM) (h : List ℕ) :
    List ℕ → Except String SigM
  | [] => Except.error "Unable to find valid recovery factor"
  | rec' :: rest =>
    match sig2pubkey { sig with recovery := some rec' } h with
    | Except.error _ => calcrecTry expected sig h rest
    | Except.ok qprime =>
      if qprime.point = expected.point then
        Except.ok { sig with
          recovery := some rec'
          compressed := some (expected.compressed.getD true) }
      else calcrecTry expected sig h rest

/-- Source `ECDSA.prototype.calcrecovery`: recovery values 0 through 3 are
tried in order. -/
def calcrecovery (expected : PubkeyG) (sig : SigM) (h : List ℕ) :
    Except String SigM :=
  calcrecTry expected sig h [0, 1, 2, 3]

theorem sig2pubkeyPoint_compressed (sig : SigM) (h : List ℕ) (c : Option Bool) :
    sig2pubkeyPoint { sig with compressed := c } h = sig2pubkeyPoint sig h := rfl

theorem sig2pubkey_compressed (sig : SigM) (h : List ℕ) (c : Option Bool) :
    sig2pubkey { sig with compressed := c } h =
      (sig2pubkeyPoint sig h).map fun q => ⟨q, c⟩ := rfl

theorem calcrecTry_ok (expected : PubkeyG) (sig : SigM) (h : List ℕ) :
    ∀ l sig', calcrecTry expected sig h l = Except.ok sig' →
      ∃ l1 i l2, l = l1 ++ i :: l2 ∧
        sig' = { sig with
          recovery := some i
          compressed := some (expected.compressed.getD true) } ∧
        recoveryMatches expected sig h i ∧
        ∀ j ∈ l1, ¬ recoveryMatches expected sig h j := by
  intro l
  induction l with
  | nil => intro sig' hx; exact Except.noConfusion hx
  | cons rec' rest ih =>
    intro sig' hx
    rw [calcrecTry] at hx
    split at hx
    · rename_i msg hs2p
      obtain ⟨l1, i, l2, hl, hsig', hm, hbef⟩ := ih sig' hx
      refine ⟨rec' :: l1, i, l2, by rw [hl]; rfl, hsig', hm, ?_⟩
      intro j hj
      rcases List.mem_cons.1 hj with rfl | hj'
      · rintro ⟨q, hq, _⟩
        rw [hs2p] at hq
        exact Except.noConfusion hq
      · exact hbef j hj'
    · rename_i qprime hs2p
      by_cases hpt : qprime.point = expected.point
      · rw [if_pos hpt] at hx
        refine ⟨[], rec', rest, rfl, (Except.ok.inj hx).symm, ⟨qprime, hs2p, hpt⟩, ?_⟩
        intro j hj
        exact absurd hj (List.not_mem_nil j)
      · rw [if_neg hpt] at hx
        obtain ⟨l1, i, l2, hl, hsig', hm, hbef⟩ := ih sig' hx
        refine ⟨rec' :: l1, i, l2, by rw [hl]; rfl, hsig', hm, ?_⟩
        intro j hj
        rcases List.mem_cons.1 hj with rfl | hj'
        · rintro ⟨q, hq, hqpt⟩
          rw [hs2p] at hq
          exact hpt ((Except.ok.inj hq) ▸ hqpt)
        · exact hbef j hj'

theorem calcrecTry_error (expected : PubkeyG) (sig : SigM) (h : List ℕ) :
    ∀ l msg, calcrecTry expected sig h l = Except.error msg →
      msg = "Unable to find valid recovery factor" ∧
      ∀ j ∈ l, ¬ recoveryMatches expected sig h j := by
  intro l
  induction l with
  | nil =>
    intro msg hx
    refine ⟨(Except.error.inj hx).symm, ?_⟩
    intro j hj
    exact absurd hj (List.not_mem_nil j)
  | cons rec' rest ih =>
    intro msg hx
    rw [calcrecTry] at hx
    split at hx
    · rename_i m hs2p
      obtain ⟨hmsg, hall⟩ := ih msg hx
      refine ⟨hmsg, ?_⟩
      intro j hj
      rcases List.mem_cons.1 hj with rfl | hj'
      · rintro ⟨q, hq, _⟩
        rw [hs2p] at hq
        exact Except.noConfusion hq
      · exact hall j hj'
    · rename_i qprime hs2p
      by_cases hpt : qprime.point = expected.point
      · rw [if_pos hpt] at hx
        exact Except.noConfusion hx
      · rw [if_neg hpt] at hx
        obtain ⟨hmsg, hall⟩ := ih msg hx
        refine ⟨hmsg, ?_⟩
        intro j hj
        rcases List.mem_cons.1 hj with rfl | hj'
        · rintro ⟨q, hq, hqpt⟩
          rw [hs2p] at hq
          exact hpt ((Except.ok.inj hq) ▸ hqpt)
        · exact hall j hj'

/-- C9: `calcrecovery` tries recovery values 0‥3 in order; on the first value
whose `sig2pubkey` succeeds and recovers the expected point it records that
recovery value and the key's compressed flag on the signature and returns it,
so afterwards `sig.recovery ∈ {0,1,2,3}` and `sig2pubkey(sig, h)` recovers the
expected key; when no value matches it throws
"Unable to find valid recovery factor". -/
theorem claim_C9 (expected : PubkeyG) (sig : SigM) (h : List ℕ) :
    (∀ sig', calcrecovery expected sig h = Except.ok sig' →
      ∃ i, i < 4 ∧ sig'.recovery = some i ∧ sig'.r = sig.r ∧ sig'.s = sig.s ∧
        sig'.compressed = some (expected.compressed.getD true) ∧
        recoveryMatches expected sig h i ∧
        (∀ j, j < i → ¬ recoveryMatches expected sig h j) ∧
        (∃ q, sig2pubkey sig' h = Except.ok q ∧ q.point = expected.point)) ∧
    (∀ msg, calcrecovery expected sig h = Except.error msg →
      msg = "Unable to find valid recovery factor" ∧
      ∀ j, j < 4 → ¬ recoveryMatches expected sig h j) := by
  have hrange : ([0, 1, 2, 3] : List ℕ) = List.range 4 := rfl
  constructor
  · intro sig' hok
    rw [calcrecovery] at hok
    obtain ⟨l1, i, l2, hl, hsig', hm, hbef⟩ := calcrecTry_ok expected sig h _ sig' hok
    rw [hrange] at hl
    have hlen : l1.length + (l2.length + 1) = 4 := by
      have := congrArg List.length hl
      simp at this
      omega
    have hi : i = l1.length := by
      have h1 : (List.range 4)[l1.length]? = some i := by
        rw [hl, List.getElem?_append_right le_rfl]
        simp
      rw [List.getElem?_range (by omega)] at h1
      exact (Option.some.inj h1).symm
    have hl1 : l1 = List.range l1.length := by
      have htk := congrArg (fun l => List.take l1.length l) hl
      simp only [List.take_left, List.take_range] at htk
      rw [min_eq_left (by omega : l1.length ≤ 4)] at htk
      exact htk.symm
    refine ⟨i, by omega, ?_, ?_, ?_, ?_, hm, ?_, ?_⟩
    · rw [hsig']
    · rw [hsig']
    · rw [hsig']
    · rw [hsig']
    · intro j hj
      apply hbef
      rw [hl1, List.mem_range]
      omega
    · obtain ⟨q, hq, hqpt⟩ := hm
      rw [sig2pubkey] at hq
      rcases hpv : sig2pubkeyPoint { sig with recovery := some i } h with m | qv
      · rw [hpv] at hq; exact Except.noConfusion hq
      · rw [hpv] at hq
        simp only [Except.map] at hq
        have hqv : qv = q.point := by
          have := Except.ok.inj hq
          rw [← this]
        refine ⟨⟨qv, some (expected.compressed.getD true)⟩, ?_, by rw [hqv]; exact hqpt⟩
        rw [hsig']
        have hcast := sig2pubkey_compressed { sig with recovery := some i } h
          (some (expected.compressed.getD true))
        rw [hcast, hpv]
        rfl
  · intro msg herr
    rw [calcrecovery] at herr
    obtain ⟨hmsg, hall⟩ := calcrecTry_error expected sig h _ msg herr
    refine ⟨hmsg, ?_⟩
    intro j hj
    apply hall
    rw [hrange, List.mem_range]
    exact hj

example : calcrecovery ⟨1, none⟩ ⟨1, 1, none, none⟩ zeroDigest =
    Except.ok ⟨1, 1, some 0, some true⟩ := by rfl

/-- C9 witness: a concrete recovery run (`r = s = 1`, all-zero digest,
expected key `G`), succeeding at recovery value 0. -/
theorem claim_C9_witness :
    ∃ i, i < 4 ∧ (⟨1, 1, some 0, some true⟩ : SigM).recovery = some i ∧
      (⟨1, 1, some 0, some true⟩ : SigM).r = (⟨1, 1, none, none⟩ : SigM).r ∧
      (⟨1, 1, some 0, some true⟩ : SigM).s = (⟨1, 1, none, none⟩ : SigM).s ∧
      (⟨1, 1, some 0, some true⟩ : SigM).compressed =
        some ((⟨1, none⟩ : PubkeyG).compressed.getD true) ∧
      recoveryMatches ⟨1, none⟩ ⟨1, 1, none, none⟩ zeroDigest i ∧
      (∀ j, j < i → ¬ recoveryMatches ⟨1, none⟩ ⟨1, 1, none, none⟩ zeroDigest j) ∧
      (∃ q, sig2pubkey ⟨1, 1, some 0, some true⟩ zeroDigest = Except.ok q ∧
        q.point = (⟨1, none⟩ : PubkeyG).point) :=
  (claim_C9 ⟨1, none⟩ ⟨1, 1, none, none⟩ zeroDigest).1 ⟨1, 1, some 0, some true⟩ (by rfl)
